import Mathlib

set_option maxRecDepth 100000

/-!
Verification development for the ETCA image codec.

The definitions below are a shallow embedding of the C++ sources of the
repository (entropy codecs, adaptive selector, subdivision geometry, tree
builder, tree (de)serializer, container header).  Byte vectors are modelled
as lists of natural numbers (each element a byte value), machine-integer
casts are modelled with explicit divisions and remainders, and loops become
fuel-indexed structural recursions where the fuel equals the loop bound of
the C++ code.  Floating point variance computations are modelled exactly
over the rationals, with the square roots taken in the real numbers.
-/

/-! ## Byte-level helpers -/

/-- Modulus of the C++ type uint32_t. -/
def u32Mod : ℕ := 2 ^ 32

/-- Modulus of the C++ type size_t (64-bit). -/
def u64Mod : ℕ := 2 ^ 64

/-- Big-endian bytes of a 16-bit value, as written by the serializers
(high shift masked with 0xFF, then the low byte). -/
def be16 (v : ℕ) : List ℕ := [v / 256 % 256, v % 256]

/-- Big-endian bytes of a 32-bit value. -/
def be32 (v : ℕ) : List ℕ :=
  [v / 2 ^ 24 % 256, v / 2 ^ 16 % 256, v / 2 ^ 8 % 256, v % 256]

/-! ## RLECodec (entropy_coding.cpp)

RLECodec::encode scans the input, counting runs capped at 255; a run of at
least 4 is emitted as marker/value/count, a literal 0xFF is escaped as
0xFF 0xFF, anything else is copied.  RLECodec::decode reverses the token
stream.  The fuel of each loop equals the number of remaining loop
iterations, which the C++ loop bounds by the input length. -/

/-- Number of further bytes equal to the current run value, capped so that
the total run length stays below 256 (the C++ condition run_length < 255). -/
def countRun (v : ℕ) : List ℕ → ℕ → ℕ
  | [], _ => 0
  | b :: rest, cap => if b = v ∧ 0 < cap then 1 + countRun v rest (cap - 1) else 0

/-- Main loop of RLECodec::encode over the remaining input suffix. -/
def rleEncodeGo : ℕ → List ℕ → List ℕ
  | 0, _ => []
  | _, [] => []
  | fuel + 1, b :: rest =>
    let run := 1 + countRun b rest 254
    if 4 ≤ run then
      255 :: b :: run :: rleEncodeGo fuel (rest.drop (run - 1))
    else if b = 255 then
      255 :: 255 :: rleEncodeGo fuel rest
    else
      b :: rleEncodeGo fuel rest

/-- RLECodec::encode: tag byte 0x01 followed by the encoded stream. -/
def rleEncode (input : List ℕ) : List ℕ :=
  1 :: rleEncodeGo input.length input

/-- Main loop of RLECodec::decode, indexed exactly like the C++ loop
(position i into the input vector, fuel bounds the iteration count). -/
def rleDecodeGo (input : List ℕ) : ℕ → ℕ → List ℕ
  | 0, _ => []
  | fuel + 1, i =>
    if i < input.length then
      let b := input.getD i 0
      if b = 255 then
        if input.length ≤ i + 1 then []
        else
          let b2 := input.getD (i + 1) 0
          if b2 = 255 then
            255 :: rleDecodeGo input fuel (i + 2)
          else if i + 2 < input.length then
            List.replicate (input.getD (i + 2) 0) b2 ++ rleDecodeGo input fuel (i + 3)
          else []
      else
        b :: rleDecodeGo input fuel (i + 1)
    else []

/-- RLECodec::decode: empty input or a wrong tag byte yields the empty
vector, otherwise the token loop starts at index 1. -/
def rleDecode (input : List ℕ) : List ℕ :=
  match input with
  | [] => []
  | b :: _ => if b = 1 then rleDecodeGo input input.length 1 else []

/-- Instrumented form of the RLECodec::decode loop: every subscript of the
input vector goes through List.get? and an out-of-bounds access (or
exhausted fuel, i.e. a non-terminating loop) yields none. -/
def rleDecodeChkGo (input : List ℕ) : ℕ → ℕ → Option (List ℕ)
  | 0, i => if i < input.length then none else some []
  | fuel + 1, i =>
    if i < input.length then
      (input.get? i).bind fun b =>
        if b = 255 then
          if input.length ≤ i + 1 then some []
          else
            (input.get? (i + 1)).bind fun b2 =>
              if b2 = 255 then
                (rleDecodeChkGo input fuel (i + 2)).map fun rest => 255 :: rest
              else if i + 2 < input.length then
                (input.get? (i + 2)).bind fun cnt =>
                  (rleDecodeChkGo input fuel (i + 3)).map fun rest =>
                    List.replicate cnt b2 ++ rest
              else some []
        else
          (rleDecodeChkGo input fuel (i + 1)).map fun rest => b :: rest
    else some []

/-- Instrumented RLECodec::decode. -/
def rleDecodeChk (input : List ℕ) : Option (List ℕ) :=
  match input with
  | [] => some []
  | b :: _ => if b = 1 then rleDecodeChkGo input input.length 1 else some []

/-! ## DeflateCodec (entropy_coding.cpp) -/

/-- Length of the match between positions i and pos of the data, mirroring
the inner while loop of DeflateCodec::find_match; the fuel starts at the
maximal match length, which bounds the iteration count. -/
def matchLenGo (data : List ℕ) (i pos maxLen : ℕ) : ℕ → ℕ → ℕ
  | len, 0 => len
  | len, fuel + 1 =>
    if pos + len < data.length ∧ i + len < pos ∧
        data.getD (i + len) 0 = data.getD (pos + len) 0 ∧ len < maxLen then
      matchLenGo data i pos maxLen (len + 1) fuel
    else len

/-- DeflateCodec::find_match: best (length, distance) pair over the sliding
window, keeping the first maximum, returning (0,0) below length 3. -/
def findMatch (data : List ℕ) (pos windowSize maxLen : ℕ) : ℕ × ℕ :=
  if pos = 0 then (0, 0)
  else
    let wstart := if pos > windowSize then pos - windowSize else 0
    let best := (List.range' wstart (pos - wstart)).foldl
      (fun acc i =>
        let len := matchLenGo data i pos maxLen 0 maxLen
        if acc.1 < len then (len, pos - i) else acc)
      (0, 0)
    if 3 ≤ best.1 then best else (0, 0)

/-- Main loop of DeflateCodec::encode. -/
def deflEncodeGo (data : List ℕ) (windowSize maxLen : ℕ) : ℕ → ℕ → List ℕ
  | 0, _ => []
  | fuel + 1, i =>
    if i < data.length then
      let m := findMatch data i windowSize maxLen
      if 0 < m.1 then
        255 :: (m.1 / 256 % 256) :: (m.1 % 256) :: (m.2 / 256 % 256) :: (m.2 % 256) ::
          deflEncodeGo data windowSize maxLen fuel (i + m.1)
      else if data.getD i 0 = 255 then
        255 :: 255 :: deflEncodeGo data windowSize maxLen fuel (i + 1)
      else
        data.getD i 0 :: deflEncodeGo data windowSize maxLen fuel (i + 1)
    else []

/-- DeflateCodec::encode with the default constructor parameters
(window 32768, maximal match length 258): tag byte 0x02 then the tokens. -/
def deflEncode (input : List ℕ) : List ℕ :=
  2 :: deflEncodeGo input 32768 258 input.length 0

/-- Inner copy loop of DeflateCodec::decode: j counts up to the match
length, the source index is reduced modulo 2^64 exactly as the C++ size_t
arithmetic does, and each copied byte is appended to the output. -/
def deflCopy (src : ℕ) : List ℕ → ℕ → ℕ → List ℕ
  | acc, _, 0 => acc
  | acc, j, n + 1 =>
    if (src + j) % u64Mod < acc.length then
      deflCopy src (acc ++ [acc.getD ((src + j) % u64Mod) 0]) (j + 1) n
    else
      deflCopy src acc (j + 1) n

/-- Main loop of DeflateCodec::decode (position i, accumulated output). -/
def deflDecodeGo (input : List ℕ) : ℕ → ℕ → List ℕ → List ℕ
  | 0, _, acc => acc
  | fuel + 1, i, acc =>
    if i < input.length then
      let b := input.getD i 0
      if b = 255 then
        if input.length ≤ i + 1 then acc
        else
          let b2 := input.getD (i + 1) 0
          if b2 = 255 then
            deflDecodeGo input fuel (i + 2) (acc ++ [255])
          else if i + 4 < input.length then
            let len := b2 * 256 + input.getD (i + 2) 0
            let dist := input.getD (i + 3) 0 * 256 + input.getD (i + 4) 0
            let src := (acc.length + u64Mod - dist) % u64Mod
            deflDecodeGo input fuel (i + 5) (deflCopy src acc 0 len)
          else acc
      else
        deflDecodeGo input fuel (i + 1) (acc ++ [b])
    else acc

/-- DeflateCodec::decode. -/
def deflDecode (input : List ℕ) : List ℕ :=
  match input with
  | [] => []
  | b :: _ => if b = 2 then deflDecodeGo input input.length 1 [] else []

/-- Instrumented inner copy loop of DeflateCodec::decode. -/
def deflCopyChk (src : ℕ) : List ℕ → ℕ → ℕ → Option (List ℕ)
  | acc, _, 0 => some acc
  | acc, j, n + 1 =>
    if (src + j) % u64Mod < acc.length then
      (acc.get? ((src + j) % u64Mod)).bind fun v =>
        deflCopyChk src (acc ++ [v]) (j + 1) n
    else
      deflCopyChk src acc (j + 1) n

/-- Instrumented main loop of DeflateCodec::decode. -/
def deflDecodeChkGo (input : List ℕ) : ℕ → ℕ → List ℕ → Option (List ℕ)
  | 0, i, acc => if i < input.length then none else some acc
  | fuel + 1, i, acc =>
    if i < input.length then
      (input.get? i).bind fun b =>
        if b = 255 then
          if input.length ≤ i + 1 then some acc
          else
            (input.get? (i + 1)).bind fun b2 =>
              if b2 = 255 then
                deflDecodeChkGo input fuel (i + 2) (acc ++ [255])
              else if i + 4 < input.length then
                (input.get? (i + 2)).bind fun c2 =>
                  (input.get? (i + 3)).bind fun c3 =>
                    (input.get? (i + 4)).bind fun c4 =>
                      (deflCopyChk ((acc.length + u64Mod - (c3 * 256 + c4)) % u64Mod)
                          acc 0 (b2 * 256 + c2)).bind fun acc2 =>
                        deflDecodeChkGo input fuel (i + 5) acc2
              else some acc
        else
          deflDecodeChkGo input fuel (i + 1) (acc ++ [b])
    else some acc

/-- Instrumented DeflateCodec::decode. -/
def deflDecodeChk (input : List ℕ) : Option (List ℕ) :=
  match input with
  | [] => some []
  | b :: _ => if b = 2 then deflDecodeChkGo input input.length 1 [] else some []

/-! ## AdvancedCodec (entropy_coding.cpp) -/

/-- Tail of AdvancedCodec::delta_encode: each output byte is the uint8
difference of the current and previous input bytes. -/
def deltaEncodeGo (prev : ℕ) : List ℕ → List ℕ
  | [] => []
  | c :: rest => (c + 256 - prev % 256) % 256 :: deltaEncodeGo c rest

/-- AdvancedCodec::delta_encode. -/
def deltaEncode : List ℕ → List ℕ
  | [] => []
  | b :: rest => b :: deltaEncodeGo b rest

/-- Loop of AdvancedCodec::delta_decode: output byte i is the uint8 sum of
output byte i-1 and input byte i. -/
def deltaDecodeGo (input : List ℕ) : ℕ → ℕ → List ℕ → List ℕ
  | 0, _, acc => acc
  | fuel + 1, i, acc =>
    if i < input.length then
      deltaDecodeGo input fuel (i + 1) (acc ++ [(acc.getD (i - 1) 0 + input.getD i 0) % 256])
    else acc

/-- AdvancedCodec::delta_decode. -/
def deltaDecode (input : List ℕ) : List ℕ :=
  match input with
  | [] => []
  | b :: _ => deltaDecodeGo input input.length 1 [b]

/-- Instrumented loop of AdvancedCodec::delta_decode. -/
def deltaDecodeChkGo (input : List ℕ) : ℕ → ℕ → List ℕ → Option (List ℕ)
  | 0, i, acc => if i < input.length then none else some acc
  | fuel + 1, i, acc =>
    if i < input.length then
      (input.get? i).bind fun d =>
        (acc.get? (i - 1)).bind fun prev =>
          deltaDecodeChkGo input fuel (i + 1) (acc ++ [(prev + d) % 256])
    else some acc

/-- Instrumented AdvancedCodec::delta_decode. -/
def deltaDecodeChk (input : List ℕ) : Option (List ℕ) :=
  match input with
  | [] => some []
  | b :: _ => deltaDecodeChkGo input input.length 1 [b]

/-- AdvancedCodec::encode: delta step, DEFLATE with window 32768 and
maximal match 258, then the DEFLATE tag is replaced by 0x03. -/
def advEncode (input : List ℕ) : List ℕ :=
  if input = [] then [3]
  else 3 :: (deflEncode (deltaEncode input)).drop 1

/-- AdvancedCodec::decode: reattach the DEFLATE tag, DEFLATE-decode, then
reverse the delta step. -/
def advDecode (input : List ℕ) : List ℕ :=
  match input with
  | [] => []
  | b :: rest => if b = 3 then deltaDecode (deflDecode (2 :: rest)) else []

/-- Instrumented AdvancedCodec::decode. -/
def advDecodeChk (input : List ℕ) : Option (List ℕ) :=
  match input with
  | [] => some []
  | b :: rest =>
    if b = 3 then (deflDecodeChk (2 :: rest)).bind deltaDecodeChk
    else some []

/-! ## AdaptiveEncoder (entropy_coding.cpp) -/

/-- Compression score of a candidate, as computed by every codec:
original size divided by the compressed size clamped below by one.  The
C++ compares these ratios as 32-bit floats; this definition idealizes
them as exact rationals, which coincides with the float comparison only
while rounding does not collapse the compared quotients (it cannot at
the small concrete payloads where this definition is evaluated, since
their quotient gaps far exceed float precision; see pickByRatio for the
abstraction used to reason about the float program in general). -/
def scoreOf (orig : ℕ) (cand : List ℕ) : ℚ :=
  (orig : ℚ) / max 1 (cand.length : ℚ)

/-- Selection loop of AdaptiveEncoder::encode: the first candidate starts
as best and a later candidate replaces it only when its ratio is strictly
larger. -/
def pickByScore (orig : ℕ) : List (List ℕ) → List ℕ
  | [] => []
  | r :: rs => rs.foldl (fun best c => if scoreOf orig best < scoreOf orig c then c else best) r

/-- Candidate list of AdaptiveEncoder::encode: RLE always, DEFLATE and
ADVANCED only when prefer_speed is false. -/
def candList (input : List ℕ) (preferSpeed : Bool) : List (List ℕ) :=
  if preferSpeed then [rleEncode input]
  else [rleEncode input, deflEncode input, advEncode input]

/-- AdaptiveEncoder::encode. -/
def adaptiveEncode (input : List ℕ) (preferSpeed : Bool) : List ℕ :=
  if input = [] then [0] else pickByScore input.length (candList input preferSpeed)

/-- AdaptiveEncoder::decode: dispatch on the tag byte; unknown tags drop
the first byte and return the rest. -/
def adaptiveDecode (input : List ℕ) : List ℕ :=
  match input with
  | [] => []
  | b :: rest =>
    if b = 1 then rleDecode input
    else if b = 2 then deflDecode input
    else if b = 3 then advDecode input
    else rest

/-- Instrumented AdaptiveEncoder::decode. -/
def adaptiveDecodeChk (input : List ℕ) : Option (List ℕ) :=
  match input with
  | [] => some []
  | b :: rest =>
    if b = 1 then rleDecodeChk input
    else if b = 2 then deflDecodeChk input
    else if b = 3 then advDecodeChk input
    else some rest

/-- Modelled from the spec: the adaptive selector described in section
4.5.4 picks the shortest candidate, breaking ties in favor of the
earlier-tried codec.  Used as the specification side of the refinement
statement about AdaptiveEncoder::encode. -/
def specPickShortest : List (List ℕ) → List ℕ
  | [] => []
  | r :: rs => rs.foldl (fun best c => if c.length < best.length then c else best) r

/-- Exact-rational form of the compression ratio, indexed by the original
size and the encoded length. -/
def ratioQ (orig len : ℕ) : ℚ := (orig : ℚ) / max 1 (len : ℚ)

/-- Selection loop of AdaptiveEncoder::encode parameterized by the ratio
function R (original size and encoded length to the compared score).  The
C++ compares compression_ratio = float(orig) / max(1.0f, float(len)) as
32-bit floats; every float value is a dyadic rational, so the float
computation is itself a function of this type, and for a fixed original
size it is antitone in the encoded length because float conversion,
max with 1, and division with a fixed dividend all round to nearest,
which is monotone.  Statements quantified over antitone R therefore
cover the float program without idealizing its precision. -/
def pickByRatio (R : ℕ → ℕ → ℚ) (orig : ℕ) : List (List ℕ) → List ℕ
  | [] => []
  | r :: rs =>
    rs.foldl (fun best c => if R orig best.length < R orig c.length then c else best) r

/-- AdaptiveEncoder::encode parameterized by the ratio function; at
R = ratioQ this is definitionally the exact-rational adaptiveEncode. -/
def adaptiveEncodeR (R : ℕ → ℕ → ℚ) (input : List ℕ) (preferSpeed : Bool) : List ℕ :=
  if input = [] then [0] else pickByRatio R input.length (candList input preferSpeed)

/-! ## Container header (etca_format.cpp) -/

/-- Magic constant of EtcaHeader. -/
def etcaMagic : ℕ := 0x45544341

/-- Compression mode byte values of the container header. -/
inductive EtcaMode where
  | lossy
  | lossless
deriving DecidableEq

/-- Byte value of a compression mode (LOSSY = 0x00, LOSSLESS = 0x01). -/
def EtcaMode.toByte : EtcaMode → ℕ
  | .lossy => 0
  | .lossless => 1

/-- EtcaHeader::serialize: the fixed 20-byte header, all multi-byte fields
big-endian, byte 19 reserved as zero. -/
def etcaHeaderSerialize (version : ℕ) (mode : EtcaMode) (width height colorDepth metaSize : ℕ) :
    List ℕ :=
  [etcaMagic / 2 ^ 24 % 256, etcaMagic / 2 ^ 16 % 256, etcaMagic / 2 ^ 8 % 256, etcaMagic % 256,
   version, mode.toByte] ++
  be32 width ++ be32 height ++
  [colorDepth] ++ be32 metaSize ++ [0]

/-! ## Subdivision geometry (tile_inflater.cpp) -/

/-- Rectangle with top-left corner (x, y), width w and height h. -/
structure Rect where
  x : ℕ
  y : ℕ
  w : ℕ
  h : ℕ
deriving DecidableEq, Repr

/-- TileInflater::get_child_bounds: 2x2 split with left/top-heavy rounding
in uint32 arithmetic; indices outside 0..3 give the default 1x1 rectangle
of the switch. -/
def getChildBounds (parentW parentH childIndex : ℕ) : Rect :=
  let leftW := (parentW + 1) % u32Mod / 2
  let rightW := parentW - leftW
  let topH := (parentH + 1) % u32Mod / 2
  let bottomH := parentH - topH
  if childIndex = 0 then ⟨0, 0, leftW, topH⟩
  else if childIndex = 1 then ⟨leftW, 0, rightW, topH⟩
  else if childIndex = 2 then ⟨0, topH, leftW, bottomH⟩
  else if childIndex = 3 then ⟨leftW, topH, rightW, bottomH⟩
  else ⟨0, 0, 1, 1⟩

/-- Membership of a pixel in a child rectangle produced by
TileInflater::get_child_bounds. -/
def inChild (parentW parentH childIndex x y : ℕ) : Prop :=
  let r := getChildBounds parentW parentH childIndex
  r.x ≤ x ∧ x < r.x + r.w ∧ r.y ≤ y ∧ y < r.y + r.h

/-- Tile id counter of TileInflater, as initialized in tile_inflater.cpp
(next_tile_id_ = 1). -/
def tileCounterInit : ℕ := 1

/-- TileInflater::inflate_tile allocates four consecutive ids from the
counter and returns them together with the new counter value. -/
def inflateIds (counter : ℕ) : List ℕ × ℕ :=
  ([counter, counter + 1, counter + 2, counter + 3], counter + 4)

/-! ## Pixel buffer (color_data.cpp) -/

/-- RGB color triple. -/
structure Color where
  r : ℕ
  g : ℕ
  b : ℕ
deriving DecidableEq, Repr

/-- Image in row-major order, as managed by ColorData. -/
structure Image where
  width : ℕ
  height : ℕ
  pixels : List Color
deriving DecidableEq, Repr

/-- ColorData constructor: all pixels initialized to black. -/
def Image.blank (w h : ℕ) : Image :=
  ⟨w, h, List.replicate (w * h) ⟨0, 0, 0⟩⟩

/-- ColorData::get_pixel: out-of-range access yields black. -/
def Image.getPixel (img : Image) (x y : ℕ) : Color :=
  if x < img.width ∧ y < img.height then img.pixels.getD (y * img.width + x) ⟨0, 0, 0⟩
  else ⟨0, 0, 0⟩

/-- ColorData::set_pixel: out-of-range writes are ignored. -/
def Image.setPixel (img : Image) (x y : ℕ) (c : Color) : Image :=
  if x < img.width ∧ y < img.height then
    { img with pixels := img.pixels.set (y * img.width + x) c }
  else img

/-- ColorData::extract_region: a blank region image whose in-bounds pixels
are copied from the source. -/
def Image.extractRegion (img : Image) (x y w h : ℕ) : Image :=
  (List.range h).foldl
    (fun reg row =>
      (List.range w).foldl
        (fun reg col =>
          if x + col < img.width ∧ y + row < img.height then
            reg.setPixel col row (img.getPixel (x + col) (y + row))
          else reg)
        reg)
    (Image.blank w h)

/-- ColorData::calculate_average_color: integer division of the channel
sums by the pixel count (truncation, as in the uint8 cast). -/
def Image.averageColor (img : Image) : Color :=
  if img.pixels = [] then ⟨0, 0, 0⟩
  else
    ⟨(img.pixels.map Color.r).sum / img.pixels.length,
     (img.pixels.map Color.g).sum / img.pixels.length,
     (img.pixels.map Color.b).sum / img.pixels.length⟩

/-! ## Variance calculator (variance_calculator.cpp)

The C++ computes per-channel mean and mean squared deviation in double
precision, then normalizes each channel as sqrt(variance)/255 and averages
the three channels.  The pre-square-root variance of each channel is an
exact rational; the square roots and the final comparison live in ℝ. -/

/-- Mean squared deviation of a list of channel values (0 for the empty
list, mirroring the empty-pixel early return). -/
def chanVar (vals : List ℕ) : ℚ :=
  if vals = [] then 0
  else
    let n : ℚ := vals.length
    let m : ℚ := (vals.sum : ℚ) / n
    (vals.foldl (fun (acc : ℚ) (v : ℕ) => acc + ((v : ℚ) - m) ^ 2) 0) / n

/-- Red channel variance of an image (before the square root). -/
def varR (img : Image) : ℚ := chanVar (img.pixels.map Color.r)

/-- Green channel variance of an image (before the square root). -/
def varG (img : Image) : ℚ := chanVar (img.pixels.map Color.g)

/-- Blue channel variance of an image (before the square root). -/
def varB (img : Image) : ℚ := chanVar (img.pixels.map Color.b)

/-- VarianceCalculator::should_subdivide: the mean of the three normalized
per-channel standard deviations exceeds the threshold. -/
def ShouldSubdivide (img : Image) (t : ℚ) : Prop :=
  (Real.sqrt (varR img) / 255 + Real.sqrt (varG img) / 255 + Real.sqrt (varB img) / 255) / 3
    > (t : ℝ)

/-! ## Tiles and the tree (spectre_tile.cpp, spectre_tree.cpp)

The C++ tree owns its tiles in a std::map keyed by the 64-bit tile id; the
map is modelled as an association list sorted by key, with insert-or-
replace preserving the order, so that iteration order (ascending keys)
matches the std::map.  The ghost field insLog records the order in which
fresh keys were first inserted; it exists only to talk about insertion
order and has no C++ counterpart. -/

/-- Node of the tree: id, depth, parent id, ordered child ids, color. -/
structure Tile where
  tid : ℕ
  depth : ℕ
  parentId : ℕ
  children : List ℕ
  color : Color
deriving DecidableEq, Repr

/-- Ordered insert-or-replace into an association list sorted by key,
matching the semantics of std::map assignment. -/
def mapInsert {α : Type} (k : ℕ) (v : α) : List (ℕ × α) → List (ℕ × α)
  | [] => [(k, v)]
  | (k2, v2) :: rest =>
    if k < k2 then (k, v) :: (k2, v2) :: rest
    else if k = k2 then (k, v) :: rest
    else (k2, v2) :: mapInsert k v rest

/-- Lookup in an association list, matching std::map::find. -/
def mapFind? {α : Type} (k : ℕ) : List (ℕ × α) → Option α
  | [] => none
  | (k2, v2) :: rest => if k = k2 then some v2 else mapFind? k rest

/-- State of a SpectreTree: image dimensions, root id, maximal depth seen,
the id-keyed tile map, the id-keyed address map, and the ghost insertion
log. -/
structure TreeState where
  width : ℕ
  height : ℕ
  rootId : ℕ
  maxDepth : ℕ
  tiles : List (ℕ × Tile)
  addrs : List (ℕ × List ℕ)
  insLog : List ℕ
deriving DecidableEq, Repr

/-- SpectreTree constructor: root tile with id 1, depth 0, parent 0, black
color, and the empty hierarchical address. -/
def initTree (w h : ℕ) : TreeState :=
  ⟨w, h, 1, 0, [(1, ⟨1, 0, 0, [], ⟨0, 0, 0⟩⟩)], [(1, [])], [1]⟩

/-- Store a tile under its id (tiles_[id] = tile), logging ids seen for
the first time. -/
def putTile (st : TreeState) (k : ℕ) (t : Tile) : TreeState :=
  { st with
    tiles := mapInsert k t st.tiles,
    insLog := if (mapFind? k st.tiles).isSome then st.insLog else st.insLog ++ [k] }

/-- Store a hierarchical address under a tile id. -/
def putAddr (st : TreeState) (k : ℕ) (a : List ℕ) : TreeState :=
  { st with addrs := mapInsert k a st.addrs }

/-- SpectreTile::set_color applied through the tile map. -/
def setColorOf (st : TreeState) (k : ℕ) (c : Color) : TreeState :=
  match mapFind? k st.tiles with
  | none => st
  | some t => { st with tiles := mapInsert k { t with color := c } st.tiles }

/-- SpectreTile::add_child repeated for a list of child ids. -/
def addChildrenTo (st : TreeState) (k : ℕ) (cs : List ℕ) : TreeState :=
  match mapFind? k st.tiles with
  | none => st
  | some t => { st with tiles := mapInsert k { t with children := t.children ++ cs } st.tiles }

/-- Update of max_depth_ at the top of build_recursive. -/
def bumpMaxDepth (st : TreeState) (d : ℕ) : TreeState :=
  if st.maxDepth < d then { st with maxDepth := d } else st

/-- Steps of build_recursive performed before the subdivision test: record
the depth and store the average color of the current region on the tile. -/
def preVisit (st : TreeState) (tid : ℕ) (img : Image) (d : ℕ) : TreeState :=
  setColorOf (bumpMaxDepth st d) tid img.averageColor

/-- Sub-image of a region image for a given child index, as extracted by
build_recursive via get_child_bounds and extract_region. -/
def childImage (img : Image) (k : ℕ) : Image :=
  let r := getChildBounds img.width img.height k
  img.extractRegion r.x r.y r.w r.h

/-- Insertion of a fresh child tile and its address performed by the child
loop of build_recursive before recursing (the C++ reads the parent id
through a reference into the tile map; it is modelled through the id).  -/
def enterChild (st : TreeState) (cid k tid d : ℕ) (addr : List ℕ) : TreeState :=
  putAddr (putTile st cid ⟨cid, d + 1, tid, [], ⟨0, 0, 0⟩⟩) cid (addr ++ [k])

/-- Big-step semantics of SpectreTree::build_recursive.  The relation
Builds img addr t d maxd tid st ctr st2 ctr2 states: running
build_recursive on region image img with hierarchical address addr,
variance threshold t, current depth d and maximum depth maxd, on the tile
with id tid, starting from tree state st and global id counter ctr,
terminates with tree state st2 and counter ctr2.  The branch condition of
the C++ (depth test and variance predicate) appears as a premise; the
variance predicate lives in ℝ, which is why the builder is a relation and
not a function. -/
inductive Builds :
    Image → List ℕ → ℚ → ℕ → ℕ → ℕ → TreeState → ℕ → TreeState → ℕ → Prop where
  | leaf {img : Image} {addr : List ℕ} {t : ℚ} {d maxd tid : ℕ} {st : TreeState} {ctr : ℕ} :
      (maxd ≤ d ∨ ¬ ShouldSubdivide img t) →
      Builds img addr t d maxd tid st ctr (preVisit st tid img d) ctr
  | node {img : Image} {addr : List ℕ} {t : ℚ} {d maxd tid : ℕ} {st : TreeState} {ctr : ℕ}
      {st1 : TreeState} {c1 : ℕ} {st2 : TreeState} {c2 : ℕ}
      {st3 : TreeState} {c3 : ℕ} {st4 : TreeState} {c4 : ℕ} :
      d < maxd →
      ShouldSubdivide img t →
      Builds (childImage img 0) (addr ++ [0]) t (d + 1) maxd ctr
        (enterChild (addChildrenTo (preVisit st tid img d) tid
          [ctr, ctr + 1, ctr + 2, ctr + 3]) ctr 0 tid d addr)
        (ctr + 4) st1 c1 →
      Builds (childImage img 1) (addr ++ [1]) t (d + 1) maxd (ctr + 1)
        (enterChild st1 (ctr + 1) 1 tid d addr) c1 st2 c2 →
      Builds (childImage img 2) (addr ++ [2]) t (d + 1) maxd (ctr + 2)
        (enterChild st2 (ctr + 2) 2 tid d addr) c2 st3 c3 →
      Builds (childImage img 3) (addr ++ [3]) t (d + 1) maxd (ctr + 3)
        (enterChild st3 (ctr + 3) 3 tid d addr) c3 st4 c4 →
      Builds img addr t d maxd tid st ctr st4 c4

/-! ## Tree serializer (compressor.cpp, Compressor::serialize_tree) -/

/-- SpectreTree::get_all_tiles: the tile ids in map iteration order, which
is ascending id order. -/
def allTileIds (st : TreeState) : List ℕ := st.tiles.map Prod.fst

/-- One tile record of the indexed serialization format: index(2),
depth(1), parent_index(2) with 0xFFFF for a missing or root parent,
r g b (3), child_count(1), then one index(2) per child. -/
def serializeRecord (ids : List ℕ) (tl : Tile) : List ℕ :=
  be16 (ids.indexOf tl.tid) ++
  [tl.depth % 256] ++
  be16 (if 0 < tl.parentId ∧ tl.parentId ∈ ids then ids.indexOf tl.parentId else 0xFFFF) ++
  [tl.color.r, tl.color.g, tl.color.b] ++
  [tl.children.length % 256] ++
  (tl.children.map (fun cid => be16 (if cid ∈ ids then ids.indexOf cid else 0xFFFF))).flatten

/-- Compressor::serialize_tree: 14-byte header (image width and height,
tile count, max depth), then one record per tile in the enumeration order
of get_all_tiles. -/
def serializeTree (st : TreeState) (img : Image) : List ℕ :=
  let ids := allTileIds st
  be32 img.width ++ be32 img.height ++ be32 st.tiles.length ++ be16 st.maxDepth ++
  (ids.map (fun k =>
    match mapFind? k st.tiles with
    | none => []
    | some tl => serializeRecord ids tl)).flatten

/-- Compressor::compress, payload part: serialize the tree, then apply
adaptive entropy coding (skipped for an empty stream). -/
def compressData (st : TreeState) (img : Image) (preferSpeed : Bool) : List ℕ :=
  let s := serializeTree st img
  if s = [] then s else adaptiveEncode s preferSpeed

/-! ## Tree deserializer (decompressor.cpp, Decompressor::deserialize_tree) -/

/-- Entropy-decode phase of deserialize_tree: bytes 0x00-0x03 dispatch to
the adaptive decoder; any other first byte leaves the data unchanged.
(The legacy 0x00/0x01 branch of the C++ is dead code, because those two
values are already caught by the codec-tag test.) -/
def decodedStage (data : List ℕ) : List ℕ :=
  if data.getD 0 0 = 0 ∨ data.getD 0 0 = 1 ∨ data.getD 0 0 = 2 ∨ data.getD 0 0 = 3 then
    adaptiveDecode data
  else data

/-- Stored image width of a decoded tree stream (header bytes 0-3,
big-endian). -/
def storedW (dec : List ℕ) : ℕ :=
  dec.getD 0 0 * 2 ^ 24 + dec.getD 1 0 * 2 ^ 16 + dec.getD 2 0 * 2 ^ 8 + dec.getD 3 0

/-- Stored image height of a decoded tree stream (header bytes 4-7). -/
def storedH (dec : List ℕ) : ℕ :=
  dec.getD 4 0 * 2 ^ 24 + dec.getD 5 0 * 2 ^ 16 + dec.getD 6 0 * 2 ^ 8 + dec.getD 7 0

/-- Stored tile count of a decoded tree stream (header bytes 8-11). -/
def storedCount (dec : List ℕ) : ℕ :=
  dec.getD 8 0 * 2 ^ 24 + dec.getD 9 0 * 2 ^ 16 + dec.getD 10 0 * 2 ^ 8 + dec.getD 11 0

/-- SpectreTree::add_deserialized_tile: register the tile (overwriting any
tile with the same id), give it the placeholder address of its depth, and
update the maximal depth. -/
def addDeserializedTile (st : TreeState) (tid d pid : ℕ) (c : Color) (cs : List ℕ) :
    TreeState :=
  let st1 := putAddr (putTile st tid ⟨tid, d, pid, cs, c⟩) tid (List.replicate d 0)
  if st1.maxDepth < d then { st1 with maxDepth := d } else st1

/-- Record-parsing loop of deserialize_tree.  The fuel is the stored tile
count (the loop variable i); off is the byte offset; pm is the map from a
child id to its parent id and position.  The loop stops early when fewer
than 9 bytes remain for a record or when the child indices would run past
the end. -/
def parseRecords (dec : List ℕ) : ℕ → ℕ → TreeState → List (ℕ × ℕ × ℕ) →
    TreeState × List (ℕ × ℕ × ℕ)
  | 0, _, st, pm => (st, pm)
  | cnt + 1, off, st, pm =>
    if off < dec.length then
      if dec.length < off + 9 then (st, pm)
      else
        let tIdx := dec.getD off 0 * 256 + dec.getD (off + 1) 0
        let tid := tIdx + 1
        let d := dec.getD (off + 2) 0
        let pIdx := dec.getD (off + 3) 0 * 256 + dec.getD (off + 4) 0
        let pid := if pIdx = 0xFFFF then 0 else pIdx + 1
        let c : Color := ⟨dec.getD (off + 5) 0, dec.getD (off + 6) 0, dec.getD (off + 7) 0⟩
        let cc := dec.getD (off + 8) 0
        if dec.length < off + 9 + 2 * cc then (st, pm)
        else
          let childAt := fun j =>
            let cIdx := dec.getD (off + 9 + 2 * j) 0 * 256 + dec.getD (off + 10 + 2 * j) 0
            if cIdx = 0xFFFF then 0 else cIdx + 1
          let cs := (List.range cc).map childAt
          let pm2 := (List.range cc).foldl (fun m j => mapInsert (childAt j) (tid, j) m) pm
          parseRecords dec cnt (off + 9 + 2 * cc) (addDeserializedTile st tid d pid c cs) pm2
    else (st, pm)

/-- Upward walk of the address-reconstruction loop: follow the
child-to-parent map collecting child positions.  The fuel bounds the chain
length; the C++ while loop would not terminate on a cyclic map, which no
well-formed stream produces. -/
def walkUp (pm : List (ℕ × ℕ × ℕ)) : ℕ → ℕ → List ℕ → List ℕ
  | 0, _, acc => acc
  | fuel + 1, cur, acc =>
    match mapFind? cur pm with
    | none => acc
    | some (pid, pos) => walkUp pm fuel pid (acc ++ [pos])

/-- Address-reconstruction loop of deserialize_tree: every id appearing as
a child gets the reversed upward path as its hierarchical address. -/
def applyAddrs (st : TreeState) (pm : List (ℕ × ℕ × ℕ)) : TreeState :=
  pm.foldl (fun s e => putAddr s e.1 ((walkUp pm (pm.length + 1) e.1 []).reverse)) st

/-- Decompressor::deserialize_tree: entropy decode, 14-byte header parse
with the dimension check, record parse, then address reconstruction.  All
failure paths return the freshly constructed tree (root only). -/
def deserializeTree (data : List ℕ) (w h : ℕ) : TreeState :=
  if data = [] then initTree w h
  else
    let dec := decodedStage data
    if dec.length < 14 then initTree w h
    else if storedW dec ≠ w ∨ storedH dec ≠ h then initTree w h
    else
      let r := parseRecords dec (storedCount dec) 14 (initTree w h) []
      applyAddrs r.1 r.2

/-! ## Image reconstruction (decompressor.cpp) -/

/-- SpectreTree::get_leaf_nodes: ids of tiles without children, in map
iteration order. -/
def leafIds (st : TreeState) : List ℕ :=
  (st.tiles.filter (fun e => e.2.children = [])).map Prod.fst

/-- Spatial bounds of a tile from its hierarchical address, mirroring
calculate_tile_bounds: start from the whole image and refine through the
address segments via get_child_bounds. -/
def tileBounds (st : TreeState) (tid : ℕ) : Rect :=
  ((mapFind? tid st.addrs).getD []).foldl
    (fun r seg =>
      let cb := getChildBounds r.w r.h seg
      ⟨r.x + cb.x, r.y + cb.y, cb.w, cb.h⟩)
    ⟨0, 0, st.width, st.height⟩

/-- Region fill of reconstruct_image: paint a rectangle (clamped to the
image) with a color, column by column as in the C++ loops. -/
def paintRect (img : Image) (r : Rect) (c : Color) : Image :=
  let ex := min (r.x + r.w) img.width
  let ey := min (r.y + r.h) img.height
  (List.range' r.x (ex - r.x)).foldl
    (fun im x => (List.range' r.y (ey - r.y)).foldl (fun im y => im.setPixel x y c) im)
    img

/-- Decompressor::reconstruct_image without interpolation: paint every
leaf rectangle with the leaf color over a blank image. -/
def reconstructImage (st : TreeState) : Image :=
  (leafIds st).foldl
    (fun im lid =>
      match mapFind? lid st.tiles with
      | none => im
      | some tl => paintRect im (tileBounds st lid) tl.color)
    (Image.blank st.width st.height)

/-- Decompressor::decompress with the default arguments (deserialize the
tree, reconstruct without interpolation; the tree pointer is never null). -/
def decompress (w h : ℕ) (data : List ℕ) : Image :=
  reconstructImage (deserializeTree data w h)

/-! ## Modelled pre-order enumeration

Modelled from the spec: the claimed pre-order (depth-first) enumeration of
the tiles rooted at the root id, following the stored child lists.  The
code has no such function; this definition is the specification side of
the ordering claim. -/

/-- Pre-order walk of the tile map from a given id (fuel bounds depth). -/
def preorderGo (st : TreeState) : ℕ → ℕ → List ℕ
  | 0, _ => []
  | fuel + 1, k =>
    match mapFind? k st.tiles with
    | none => []
    | some tl => k :: (tl.children.map (preorderGo st fuel)).flatten

/-- Pre-order enumeration of a tree state rooted at the root id. -/
def preorderIds (st : TreeState) : List ℕ :=
  preorderGo st (st.tiles.length + 1) st.rootId

/-- Strictly ascending key order of an association list (the std::map
invariant). -/
def keysSorted {α : Type} (l : List (ℕ × α)) : Prop :=
  List.Pairwise (fun a b => a.1 < b.1) l

/-! ## Concrete scenario constants -/

/-- Checkerboard 2x2 image of the spec scenario: red at (0,0) and (1,1),
black elsewhere, green and blue zero. -/
def c2Img : Image :=
  ⟨2, 2, [⟨255, 0, 0⟩, ⟨0, 0, 0⟩, ⟨0, 0, 0⟩, ⟨255, 0, 0⟩]⟩

/-- Tree state actually produced by building the 2x2 checkerboard with
threshold 1/100 and max depth 1 in a fresh process (id counter 1): the
first inflation allocates child id 1, which overwrites the root, leaving
four parentless leaves. -/
def c2Final : TreeState :=
  ⟨2, 2, 1, 1,
   [(1, ⟨1, 1, 1, [], ⟨255, 0, 0⟩⟩), (2, ⟨2, 1, 1, [], ⟨0, 0, 0⟩⟩),
    (3, ⟨3, 1, 1, [], ⟨0, 0, 0⟩⟩), (4, ⟨4, 1, 1, [], ⟨255, 0, 0⟩⟩)],
   [(1, [0]), (2, [1]), (3, [2]), (4, [3])],
   [1, 2, 3, 4]⟩

/-- Grayscale 4x4 image whose top-left quadrant holds two white pixels;
its build subdivides the root and then the first child. -/
def c4Img : Image :=
  ⟨4, 4,
   [⟨255, 255, 255⟩, ⟨0, 0, 0⟩, ⟨0, 0, 0⟩, ⟨0, 0, 0⟩,
    ⟨0, 0, 0⟩, ⟨255, 255, 255⟩, ⟨0, 0, 0⟩, ⟨0, 0, 0⟩,
    ⟨0, 0, 0⟩, ⟨0, 0, 0⟩, ⟨0, 0, 0⟩, ⟨0, 0, 0⟩,
    ⟨0, 0, 0⟩, ⟨0, 0, 0⟩, ⟨0, 0, 0⟩, ⟨0, 0, 0⟩]⟩

/-- Tree built from c4Img with threshold 1/20, max depth 2, and the id
counter at 2 (a session whose first allocation does not collide with the
root): a depth-2 tree of nine tiles. -/
def c4Final : TreeState :=
  ⟨4, 4, 1, 2,
   [(1, ⟨1, 0, 0, [2, 3, 4, 5], ⟨31, 31, 31⟩⟩),
    (2, ⟨2, 1, 1, [6, 7, 8, 9], ⟨127, 127, 127⟩⟩),
    (3, ⟨3, 1, 1, [], ⟨0, 0, 0⟩⟩), (4, ⟨4, 1, 1, [], ⟨0, 0, 0⟩⟩),
    (5, ⟨5, 1, 1, [], ⟨0, 0, 0⟩⟩),
    (6, ⟨6, 2, 2, [], ⟨255, 255, 255⟩⟩), (7, ⟨7, 2, 2, [], ⟨0, 0, 0⟩⟩),
    (8, ⟨8, 2, 2, [], ⟨0, 0, 0⟩⟩), (9, ⟨9, 2, 2, [], ⟨255, 255, 255⟩⟩)],
   [(1, []), (2, [0]), (3, [1]), (4, [2]), (5, [3]),
    (6, [0, 0]), (7, [0, 1]), (8, [0, 2]), (9, [0, 3])],
   [1, 2, 6, 7, 8, 9, 3, 4, 5]⟩

/-- Compressed payload whose stored tree header declares a 1x1 image
(after stripping the NONE entropy tag), fed to a decoder expecting 2x2:
a dimension mismatch. -/
def c5CexData : List ℕ := [0, 0, 0, 0, 1, 0, 0, 0, 1, 0, 0, 0, 0, 0, 0]

/-! # Theorems -/

/-! ## General list helpers -/

/-- A guarded index read returns exactly the defaulted read. -/
theorem get?_eq_getD {l : List ℕ} {i : ℕ} (h : i < l.length) :
    l.get? i = some (l.getD i 0) := by
  induction l generalizing i with
  | nil => simp at h
  | cons a as ih =>
    cases i with
    | zero => simp [List.get?, List.getD]
    | succ j =>
      simp only [List.length_cons, Nat.succ_lt_succ_iff] at h
      simpa [List.get?, List.getD] using ih h

/-! ## C9: container header serialization -/

/-- C9: serializing the container header EtcaHeader with version 1, lossy
mode, width 640, height 480, color depth 0x18 and metadata size 0
produces exactly the 20-byte sequence
45 54 43 41 01 00 00 00 02 80 00 00 01 E0 18 00 00 00 00 00. -/
theorem c9_header_bytes :
    etcaHeaderSerialize 1 .lossy 640 480 0x18 0 =
      [0x45, 0x54, 0x43, 0x41, 0x01, 0x00, 0x00, 0x00, 0x02, 0x80,
       0x00, 0x00, 0x01, 0xE0, 0x18, 0x00, 0x00, 0x00, 0x00, 0x00] := by
  decide

/-! ## C1: codec round-trip -/

/-- C1: the claimed round-trip decode_c(encode_c(b)) = b fails for the RLE
codec at the input consisting of four 0xFF bytes: the encoder emits the
run token FF FF 04, which the decoder reads as an escaped literal 0xFF
followed by a literal 0x04, so decoding the encoding of FF FF FF FF
returns FF 04. -/
theorem c1_rle_roundtrip_fails :
    rleDecode (rleEncode [255, 255, 255, 255]) = [255, 4] ∧
      rleDecode (rleEncode [255, 255, 255, 255]) ≠ [255, 255, 255, 255] := by
  constructor
  · decide
  · decide

/-! ## C3: tile id allocation -/

/-- C3: in a fresh build session the claimed freshness of allocated tile
ids fails: the TileInflater counter is initialized to 1, so the very first
inflation returns child ids 1, 2, 3, 4; the first child id equals the root
id already present in the tree, and inserting the four children leaves a
tree of four tiles instead of five (the root is overwritten). -/
theorem c3_first_allocation_collides :
    (inflateIds tileCounterInit).1 = [1, 2, 3, 4] ∧
      (initTree 2 2).rootId ∈ (inflateIds tileCounterInit).1 ∧
      (mapFind? (initTree 2 2).rootId (initTree 2 2).tiles).isSome = true ∧
      ((inflateIds tileCounterInit).1.foldl
        (fun st cid => putTile st cid ⟨cid, 1, 1, [], ⟨0, 0, 0⟩⟩)
        (initTree 2 2)).tiles.length = 4 := by
  refine ⟨by decide, by decide, by decide, by decide⟩

/-! ## C8: subdivision geometry partitions the parent -/

/-- C8: for a parent rectangle with uint32 dimensions W >= 1 and H >= 1,
the four child rectangles of get_child_bounds cover every parent pixel,
are pairwise disjoint, and stay inside the parent. -/
theorem c8_child_bounds_partition (W H : ℕ)
    (hW1 : 1 ≤ W) (hW2 : W < u32Mod) (hH1 : 1 ≤ H) (hH2 : H < u32Mod) :
    (∀ x y, x < W → y < H → ∃ k, k < 4 ∧ inChild W H k x y) ∧
    (∀ k1 k2 x y, k1 < 4 → k2 < 4 →
      inChild W H k1 x y → inChild W H k2 x y → k1 = k2) ∧
    (∀ k x y, k < 4 → inChild W H k x y → x < W ∧ y < H) := by
  refine ⟨?_, ?_, ?_⟩
  · intro x y hx hy
    by_cases hxL : x < (W + 1) % u32Mod / 2 <;> by_cases hyT : y < (H + 1) % u32Mod / 2
    · exact ⟨0, by norm_num, by simp [inChild, getChildBounds, u32Mod] at *; omega⟩
    · exact ⟨2, by norm_num, by simp [inChild, getChildBounds, u32Mod] at *; omega⟩
    · exact ⟨1, by norm_num, by simp [inChild, getChildBounds, u32Mod] at *; omega⟩
    · exact ⟨3, by norm_num, by simp [inChild, getChildBounds, u32Mod] at *; omega⟩
  · intro k1 k2 x y hk1 hk2 h1 h2
    interval_cases k1 <;> interval_cases k2 <;>
      simp_all [inChild, getChildBounds, u32Mod] <;> omega
  · intro k x y hk h
    interval_cases k <;> simp_all [inChild, getChildBounds, u32Mod] <;> omega

/-- Witness for C8 at the concrete parent 3x3. -/
theorem c8_witness :
    (1 ≤ 3 ∧ 3 < u32Mod) ∧
    ((∀ x y, x < 3 → y < 3 → ∃ k, k < 4 ∧ inChild 3 3 k x y) ∧
     (∀ k1 k2 x y, k1 < 4 → k2 < 4 →
       inChild 3 3 k1 x y → inChild 3 3 k2 x y → k1 = k2) ∧
     (∀ k x y, k < 4 → inChild 3 3 k x y → x < 3 ∧ y < 3)) :=
  ⟨⟨by decide, by decide⟩,
   c8_child_bounds_partition 3 3 (by decide) (by decide) (by decide) (by decide)⟩

/-! ## C6, C7: adaptive selector -/

/-- Every RLE encoding starts with its tag byte. -/
theorem rleEncode_ne_nil (input : List ℕ) : rleEncode input ≠ [] := by
  simp [rleEncode]

/-- Every DEFLATE encoding starts with its tag byte. -/
theorem deflEncode_ne_nil (input : List ℕ) : deflEncode input ≠ [] := by
  simp [deflEncode]

/-- Every ADVANCED encoding starts with its tag byte. -/
theorem advEncode_ne_nil (input : List ℕ) : advEncode input ≠ [] := by
  by_cases h : input = [] <;> simp [advEncode, h]

/-- For a fixed positive original size, a strictly larger compression
score is the same as a strictly smaller encoded length. -/
theorem scoreOf_lt_iff {orig : ℕ} (h : 0 < orig) {a b : List ℕ}
    (ha : a ≠ []) (hb : b ≠ []) :
    (scoreOf orig a < scoreOf orig b ↔ b.length < a.length) := by
  have ha1 : (1 : ℚ) ≤ (a.length : ℚ) := by
    exact_mod_cast Nat.one_le_iff_ne_zero.mpr (List.length_pos.mpr ha).ne'
  have hb1 : (1 : ℚ) ≤ (b.length : ℚ) := by
    exact_mod_cast Nat.one_le_iff_ne_zero.mpr (List.length_pos.mpr hb).ne'
  have horig : (0 : ℚ) < (orig : ℚ) := by exact_mod_cast h
  unfold scoreOf
  rw [max_eq_right ha1, max_eq_right hb1,
    div_lt_div_iff₀ (by linarith) (by linarith), mul_lt_mul_left horig, Nat.cast_lt]

/-- Selection-loop equivalence: maximizing the ratio and minimizing the
length pick the same candidate when all candidates are nonempty. -/
theorem pickFold_eq {orig : ℕ} (h : 0 < orig) :
    ∀ (rs : List (List ℕ)) (r : List ℕ), r ≠ [] → (∀ c ∈ rs, c ≠ []) →
      rs.foldl (fun best c => if scoreOf orig best < scoreOf orig c then c else best) r =
        rs.foldl (fun best c => if c.length < best.length then c else best) r := by
  intro rs
  induction rs with
  | nil => intro r _ _; rfl
  | cons c cs ih =>
    intro r hr hall
    have hc : c ≠ [] := hall c (List.mem_cons_self c cs)
    have hcs : ∀ d ∈ cs, d ≠ [] := fun d hd => hall d (List.mem_cons_of_mem c hd)
    simp only [List.foldl]
    by_cases hlt : c.length < r.length
    · rw [if_pos ((scoreOf_lt_iff h hr hc).mpr hlt), if_pos hlt]
      exact ih c hc hcs
    · rw [if_neg (fun hcon => hlt ((scoreOf_lt_iff h hr hc).mp hcon)), if_neg hlt]
      exact ih r hr hcs

/-- The ratio-maximizing selection loop of AdaptiveEncoder::encode equals
the shortest-result selection described by the spec, for a positive
original size and nonempty candidates. -/
theorem pickByScore_eq_spec {orig : ℕ} (h : 0 < orig) :
    ∀ (l : List (List ℕ)), (∀ c ∈ l, c ≠ []) →
      pickByScore orig l = specPickShortest l := by
  intro l
  cases l with
  | nil => intro _; rfl
  | cons r rs =>
    intro hall
    simp only [pickByScore, specPickShortest]
    exact pickFold_eq h rs r (hall r (List.mem_cons_self r rs))
      (fun d hd => hall d (List.mem_cons_of_mem r hd))

/-- Candidates tried by the adaptive encoder are never empty byte vectors. -/
theorem candList_ne_nil (input : List ℕ) (ps : Bool) :
    ∀ c ∈ candList input ps, c ≠ [] := by
  intro c hc
  cases ps
  · simp [candList] at hc
    rcases hc with h | h | h
    · subst h; exact rleEncode_ne_nil input
    · subst h; exact deflEncode_ne_nil input
    · subst h; exact advEncode_ne_nil input
  · simp [candList] at hc
    subst hc; exact rleEncode_ne_nil input

/-- The shortest-selection fold never returns something longer than its
first candidate. -/
theorem specPick_foldl_le (rs : List (List ℕ)) :
    ∀ r : List ℕ,
      (rs.foldl (fun best c => if c.length < best.length then c else best) r).length
        ≤ r.length := by
  induction rs with
  | nil => intro r; simp
  | cons c cs ih =>
    intro r
    simp only [List.foldl]
    by_cases hlt : c.length < r.length
    · rw [if_pos hlt]; exact le_trans (ih c) (le_of_lt hlt)
    · rw [if_neg hlt]; exact ih r

/-- The exact-rational ratio is antitone in the encoded length for every
fixed original size (the property the float ratio of the C++ shares). -/
theorem ratioQ_antitone : ∀ (orig a b : ℕ), a ≤ b → ratioQ orig b ≤ ratioQ orig a := by
  intro orig a b hab
  unfold ratioQ
  have h1 : (0 : ℚ) < max 1 (a : ℚ) := lt_of_lt_of_le one_pos (le_max_left _ _)
  have h2 : max 1 (a : ℚ) ≤ max 1 (b : ℚ) := max_le_max (le_refl 1) (by exact_mod_cast hab)
  have h0 : (0 : ℚ) ≤ (orig : ℚ) := by positivity
  exact div_le_div_of_nonneg_left h0 h1 h2

/-- The exact-rational evaluation model of the adaptive encoder is the
ratio-parameterized encoder at R = ratioQ. -/
theorem adaptiveEncode_eq_ratioModel (input : List ℕ) (ps : Bool) :
    adaptiveEncode input ps = adaptiveEncodeR ratioQ input ps := rfl

/-- With an antitone ratio, a selection replacement has a strictly larger
score and hence a strictly smaller length, so the fold never returns a
candidate longer than its first one. -/
theorem pickByRatio_le_head (R : ℕ → ℕ → ℚ) (orig : ℕ)
    (hR : ∀ a b, a ≤ b → R orig b ≤ R orig a) :
    ∀ (rs : List (List ℕ)) (r : List ℕ),
      (pickByRatio R orig (r :: rs)).length ≤ r.length := by
  intro rs
  induction rs with
  | nil => intro r; simp [pickByRatio]
  | cons c cs ih =>
    intro r
    have hstep : (if R orig r.length < R orig c.length then c else r).length ≤ r.length := by
      split
      · rename_i hlt
        by_contra hc
        exact absurd hlt (not_lt.mpr (hR r.length c.length (by omega)))
      · exact le_refl _
    have he : pickByRatio R orig (r :: c :: cs) =
        pickByRatio R orig ((if R orig r.length < R orig c.length then c else r) :: cs) := rfl
    rw [he]
    exact le_trans (ih _) hstep

/-- C7: with prefer_speed false, the adaptive encoder output is never
longer than the RLE encoding of the same input, for every ratio function
that is antitone in the encoded length.  The 32-bit float ratio actually
compared by AdaptiveEncoder::encode is such a function (floats are
dyadic rationals and round-to-nearest conversion and division are
monotone), so the program is an instance; no exactness of the float
comparison is assumed. -/
theorem c7_adaptive_le_rle (R : ℕ → ℕ → ℚ)
    (hR : ∀ orig a b, a ≤ b → R orig b ≤ R orig a) (input : List ℕ) :
    (adaptiveEncodeR R input false).length ≤ (rleEncode input).length := by
  by_cases he : input = []
  · subst he; simp [adaptiveEncodeR, rleEncode, rleEncodeGo]
  · rw [adaptiveEncodeR, if_neg he]
    have hc : candList input false = [rleEncode input, deflEncode input, advEncode input] := by
      simp [candList]
    rw [hc]
    exact pickByRatio_le_head R input.length (hR input.length) _ _

/-- Witness for C7 at the exact-rational ratio instance and a concrete
input. -/
theorem c7_adaptive_le_rle_witness :
    (∀ (orig a b : ℕ), a ≤ b → ratioQ orig b ≤ ratioQ orig a) ∧
      (adaptiveEncodeR ratioQ [7, 7, 7, 7, 7] false).length ≤
        (rleEncode [7, 7, 7, 7, 7]).length :=
  ⟨ratioQ_antitone, c7_adaptive_le_rle ratioQ ratioQ_antitone [7, 7, 7, 7, 7]⟩

/-! ## C10: decoder termination and in-bounds accesses

Each instrumented decoder returns none if the loop would read outside its
input or output buffer, or if the loop would run longer than its fuel
(which equals the input length, the C++ termination measure).  The
theorems below show the instrumented decoders always return the plain
decoding result, i.e. the loops terminate and every access is in bounds. -/

/-- Agreement of the instrumented and plain RLE decode loops. -/
theorem rleDecodeGo_agree (input : List ℕ) :
    ∀ fuel i, input.length ≤ i + fuel →
      rleDecodeChkGo input fuel i = some (rleDecodeGo input fuel i) := by
  intro fuel
  induction fuel with
  | zero =>
    intro i hle
    have hi : ¬ i < input.length := by omega
    simp [rleDecodeChkGo, rleDecodeGo, hi]
  | succ fuel ih =>
    intro i hle
    by_cases hi : i < input.length
    · simp only [rleDecodeChkGo, rleDecodeGo, if_pos hi, get?_eq_getD hi, Option.some_bind]
      by_cases hb : input.getD i 0 = 255
      · rw [if_pos hb, if_pos hb]
        by_cases h1 : input.length ≤ i + 1
        · rw [if_pos h1, if_pos h1]
        · simp only [if_neg h1, get?_eq_getD (show i + 1 < input.length by omega),
            Option.some_bind]
          by_cases hb2 : input.getD (i + 1) 0 = 255
          · rw [if_pos hb2, if_pos hb2, ih (i + 2) (by omega), Option.map_some']
          · rw [if_neg hb2, if_neg hb2]
            by_cases h2 : i + 2 < input.length
            · simp only [if_pos h2, get?_eq_getD h2, Option.some_bind,
                ih (i + 3) (by omega : input.length ≤ i + 3 + fuel), Option.map_some']
            · rw [if_neg h2, if_neg h2]
      · rw [if_neg hb, if_neg hb, ih (i + 1) (by omega), Option.map_some']
    · simp [rleDecodeChkGo, rleDecodeGo, hi]

/-- Agreement of the instrumented and plain RLE decoders. -/
theorem rleDecode_agree (input : List ℕ) :
    rleDecodeChk input = some (rleDecode input) := by
  cases input with
  | nil => rfl
  | cons b rest =>
    simp only [rleDecodeChk, rleDecode]
    by_cases hb : b = 1
    · rw [if_pos hb, if_pos hb]
      exact rleDecodeGo_agree _ _ 1 (by omega)
    · rw [if_neg hb, if_neg hb]

/-- Agreement of the instrumented and plain DEFLATE copy loops. -/
theorem deflCopy_agree (src : ℕ) :
    ∀ (n : ℕ) (acc : List ℕ) (j : ℕ),
      deflCopyChk src acc j n = some (deflCopy src acc j n) := by
  intro n
  induction n with
  | zero => intro acc j; rfl
  | succ n ih =>
    intro acc j
    by_cases hin : (src + j) % u64Mod < acc.length
    · simp only [deflCopyChk, deflCopy, if_pos hin, get?_eq_getD hin, Option.some_bind]
      exact ih _ _
    · simp only [deflCopyChk, deflCopy, if_neg hin]
      exact ih _ _

/-- Agreement of the instrumented and plain DEFLATE decode loops. -/
theorem deflDecodeGo_agree (input : List ℕ) :
    ∀ fuel i acc, input.length ≤ i + fuel →
      deflDecodeChkGo input fuel i acc = some (deflDecodeGo input fuel i acc) := by
  intro fuel
  induction fuel with
  | zero =>
    intro i acc hle
    have hi : ¬ i < input.length := by omega
    simp [deflDecodeChkGo, deflDecodeGo, hi]
  | succ fuel ih =>
    intro i acc hle
    by_cases hi : i < input.length
    · simp only [deflDecodeChkGo, deflDecodeGo, if_pos hi, get?_eq_getD hi, Option.some_bind]
      by_cases hb : input.getD i 0 = 255
      · rw [if_pos hb, if_pos hb]
        by_cases h1 : input.length ≤ i + 1
        · rw [if_pos h1, if_pos h1]
        · simp only [if_neg h1, get?_eq_getD (show i + 1 < input.length by omega),
            Option.some_bind]
          by_cases hb2 : input.getD (i + 1) 0 = 255
          · rw [if_pos hb2, if_pos hb2]
            exact ih (i + 2) _ (by omega)
          · rw [if_neg hb2, if_neg hb2]
            by_cases h4 : i + 4 < input.length
            · simp only [if_pos h4, get?_eq_getD (show i + 2 < input.length by omega),
                get?_eq_getD (show i + 3 < input.length by omega),
                get?_eq_getD (show i + 4 < input.length by omega), Option.some_bind,
                deflCopy_agree]
              exact ih (i + 5) _ (by omega)
            · rw [if_neg h4, if_neg h4]
      · rw [if_neg hb, if_neg hb]
        exact ih (i + 1) _ (by omega)
    · simp [deflDecodeChkGo, deflDecodeGo, hi]

/-- Agreement of the instrumented and plain DEFLATE decoders. -/
theorem deflDecode_agree (input : List ℕ) :
    deflDecodeChk input = some (deflDecode input) := by
  cases input with
  | nil => rfl
  | cons b rest =>
    simp only [deflDecodeChk, deflDecode]
    by_cases hb : b = 2
    · rw [if_pos hb, if_pos hb]
      exact deflDecodeGo_agree _ _ 1 [] (by omega)
    · rw [if_neg hb, if_neg hb]

/-- Agreement of the instrumented and plain delta decode loops. -/
theorem deltaDecodeGo_agree (input : List ℕ) :
    ∀ fuel i acc, input.length ≤ i + fuel → 1 ≤ i → acc.length = i →
      deltaDecodeChkGo input fuel i acc = some (deltaDecodeGo input fuel i acc) := by
  intro fuel
  induction fuel with
  | zero =>
    intro i acc hle _ _
    have hi : ¬ i < input.length := by omega
    simp [deltaDecodeChkGo, deltaDecodeGo, hi]
  | succ fuel ih =>
    intro i acc hle h1 hlen
    by_cases hi : i < input.length
    · have hacc : i - 1 < acc.length := by omega
      simp only [deltaDecodeChkGo, deltaDecodeGo, if_pos hi, get?_eq_getD hi,
        get?_eq_getD hacc, Option.some_bind]
      exact ih (i + 1) _ (by omega) (by omega) (by simp [hlen])
    · simp [deltaDecodeChkGo, deltaDecodeGo, hi]

/-- Agreement of the instrumented and plain delta decoders. -/
theorem deltaDecode_agree (input : List ℕ) :
    deltaDecodeChk input = some (deltaDecode input) := by
  cases input with
  | nil => rfl
  | cons b rest =>
    simp only [deltaDecodeChk, deltaDecode]
    exact deltaDecodeGo_agree _ _ 1 [b] (by omega) (by omega) (by simp)

/-- Agreement of the instrumented and plain ADVANCED decoders. -/
theorem advDecode_agree (input : List ℕ) :
    advDecodeChk input = some (advDecode input) := by
  cases input with
  | nil => rfl
  | cons b rest =>
    simp only [advDecodeChk, advDecode]
    by_cases hb : b = 3
    · rw [if_pos hb, if_pos hb, deflDecode_agree, Option.some_bind]
      exact deltaDecode_agree _
    · rw [if_neg hb, if_neg hb]

/-- C10: the RLE, DEFLATE and adaptive decoders terminate on every input
(well-formed or malformed) and perform only in-bounds reads on their
input and output buffers: the instrumented decoders, which return none on
any out-of-bounds access or unbounded loop, always return the plain
decoding result. -/
theorem c10_decoders_safe (input : List ℕ) :
    rleDecodeChk input = some (rleDecode input) ∧
    deflDecodeChk input = some (deflDecode input) ∧
    adaptiveDecodeChk input = some (adaptiveDecode input) := by
  refine ⟨rleDecode_agree input, deflDecode_agree input, ?_⟩
  cases input with
  | nil => rfl
  | cons b rest =>
    simp only [adaptiveDecodeChk, adaptiveDecode]
    by_cases h1 : b = 1
    · rw [if_pos h1, if_pos h1]; exact rleDecode_agree _
    · rw [if_neg h1, if_neg h1]
      by_cases h2 : b = 2
      · rw [if_pos h2, if_pos h2]; exact deflDecode_agree _
      · rw [if_neg h2, if_neg h2]
        by_cases h3 : b = 3
        · rw [if_pos h3, if_pos h3]; exact advDecode_agree _
        · rw [if_neg h3, if_neg h3]

/-! ## Variance predicate helpers -/

/-- Subdivision criterion for a grayscale region: all three channel
variances equal v and v exceeds the square of 255 times the threshold. -/
theorem shouldSubdiv_gray {img : Image} {t : ℚ} (v : ℚ) (ht : 0 ≤ t)
    (hr : varR img = v) (hg : varG img = v) (hb : varB img = v)
    (hv : (255 * t) ^ 2 < v) : ShouldSubdivide img t := by
  unfold ShouldSubdivide
  rw [hr, hg, hb]
  have hvR : ((255 * t : ℚ) : ℝ) ^ 2 < (v : ℝ) := by exact_mod_cast hv
  push_cast at hvR
  have hgt : 255 * ((t : ℚ) : ℝ) < Real.sqrt (v : ℝ) := Real.lt_sqrt_of_sq_lt hvR
  linarith

/-- Subdivision criterion when only the red channel varies: its variance
exceeds the square of 765 times the threshold. -/
theorem shouldSubdiv_singleR {img : Image} {t : ℚ} (v : ℚ) (ht : 0 ≤ t)
    (hr : varR img = v) (hg : varG img = 0) (hb : varB img = 0)
    (hv : (765 * t) ^ 2 < v) : ShouldSubdivide img t := by
  unfold ShouldSubdivide
  rw [hr, hg, hb]
  have hvR : ((765 * t : ℚ) : ℝ) ^ 2 < (v : ℝ) := by exact_mod_cast hv
  push_cast at hvR
  have hgt : 765 * ((t : ℚ) : ℝ) < Real.sqrt (v : ℝ) := Real.lt_sqrt_of_sq_lt hvR
  push_cast
  rw [Real.sqrt_zero]
  linarith

/-- A region with zero variance on all channels is never subdivided for a
nonnegative threshold. -/
theorem notSubdiv_zeroVar {img : Image} {t : ℚ} (ht : 0 ≤ t)
    (hr : varR img = 0) (hg : varG img = 0) (hb : varB img = 0) :
    ¬ ShouldSubdivide img t := by
  unfold ShouldSubdivide
  rw [hr, hg, hb]
  push_cast
  rw [Real.sqrt_zero]
  norm_num
  exact_mod_cast ht

/-! ## C5: dimension mismatch behavior -/

/-- Setting a replicated element to the same value changes nothing. -/
theorem set_replicate_self {α : Type} :
    ∀ (n i : ℕ) (a : α), (List.replicate n a).set i a = List.replicate n a := by
  intro n
  induction n with
  | zero => intro i a; simp
  | succ n ih => intro i a; cases i <;> simp [List.replicate_succ, ih]

/-- Painting a black pixel on a blank image is the identity. -/
theorem setPixel_blank (w h x y : ℕ) :
    (Image.blank w h).setPixel x y ⟨0, 0, 0⟩ = Image.blank w h := by
  unfold Image.setPixel Image.blank
  split
  · simp [set_replicate_self]
  · rfl

/-- Painting a black column on a blank image is the identity. -/
theorem foldl_setPixel_blank (w h x : ℕ) (ys : List ℕ) :
    ys.foldl (fun im y => im.setPixel x y ⟨0, 0, 0⟩) (Image.blank w h) =
      Image.blank w h := by
  induction ys with
  | nil => rfl
  | cons y ys ih => simp only [List.foldl, setPixel_blank, ih]

/-- Painting black columns over a blank image is the identity. -/
theorem foldl_paint_blank (w h : ℕ) (ys : List ℕ) :
    ∀ xs : List ℕ,
      xs.foldl (fun im x => List.foldl (fun im y => im.setPixel x y ⟨0, 0, 0⟩) im ys)
        (Image.blank w h) = Image.blank w h := by
  intro xs
  induction xs with
  | nil => rfl
  | cons x xs ih =>
    simp only [List.foldl]
    rw [foldl_setPixel_blank]
    exact ih

/-- Painting any black rectangle on a blank image is the identity. -/
theorem paintRect_blank (w h : ℕ) (r : Rect) :
    paintRect (Image.blank w h) r ⟨0, 0, 0⟩ = Image.blank w h := by
  unfold paintRect
  exact foldl_paint_blank w h _ _

/-- Reconstructing a freshly constructed tree (root only, black, empty
address) yields the blank image. -/
theorem reconstruct_init (w h : ℕ) :
    reconstructImage (initTree w h) = Image.blank w h := by
  have h1 : leafIds (initTree w h) = [1] := rfl
  unfold reconstructImage
  rw [h1]
  simp only [List.foldl]
  have h2 : mapFind? 1 (initTree w h).tiles = some ⟨1, 0, 0, [], ⟨0, 0, 0⟩⟩ := rfl
  rw [h2]
  have h3 : tileBounds (initTree w h) 1 = ⟨0, 0, w, h⟩ := rfl
  rw [h3]
  exact paintRect_blank w h ⟨0, 0, w, h⟩

/-- C5 (amended): when the dimensions stored in the serialized tree header
disagree with the container-declared dimensions, deserialize_tree returns
the freshly constructed tree holding only the root, and decompress returns
the blank (all-black) image of the declared dimensions; no error is
surfaced to the caller. -/
theorem c5_mismatch_gives_blank (data : List ℕ) (w h : ℕ) (hne : data ≠ [])
    (hlen : 14 ≤ (decodedStage data).length)
    (hmm : storedW (decodedStage data) ≠ w ∨ storedH (decodedStage data) ≠ h) :
    deserializeTree data w h = initTree w h ∧
      decompress w h data = Image.blank w h := by
  have h1 : deserializeTree data w h = initTree w h := by
    unfold deserializeTree
    rw [if_neg hne, if_neg (by omega : ¬ (decodedStage data).length < 14), if_pos hmm]
  refine ⟨h1, ?_⟩
  unfold decompress
  rw [h1, reconstruct_init]

/-- Witness for the amended C5 at the concrete mismatching payload. -/
theorem c5_mismatch_witness :
    (c5CexData ≠ [] ∧ 14 ≤ (decodedStage c5CexData).length ∧
      (storedW (decodedStage c5CexData) ≠ 2 ∨ storedH (decodedStage c5CexData) ≠ 2)) ∧
    (deserializeTree c5CexData 2 2 = initTree 2 2 ∧
      decompress 2 2 c5CexData = Image.blank 2 2) :=
  ⟨⟨by decide, by decide, by decide⟩,
   c5_mismatch_gives_blank c5CexData 2 2 (by decide) (by decide) (by decide)⟩

/-- C5 (counterexample to the claim as stated): on the concrete payload
whose stored tree header declares 1x1 against container dimensions 2x2,
the decode call does not fail: it returns a 2x2 blank image to the
caller, reconstructed from a root-only tree. -/
theorem c5_no_error_surfaced :
    decompress 2 2 c5CexData = Image.blank 2 2 ∧
      deserializeTree c5CexData 2 2 = initTree 2 2 := by
  exact ⟨by decide, by decide⟩

/-! ## C2: the 2x2 checkerboard scenario -/

/-- Build of the 2x2 checkerboard with threshold 1/100 and max depth 1 in
a fresh process: the id counter starts at 1 as initialized in
tile_inflater.cpp, so the four children get ids 1, 2, 3, 4 and the first
overwrites the root. -/
theorem buildC2 : Builds c2Img [] (1 / 100) 0 1 1 (initTree 2 2) 1 c2Final 5 :=
  Builds.node (by norm_num)
    (shouldSubdiv_singleR (65025 / 4) (by norm_num)
      (by rw [varR, chanVar, if_neg (by decide)]; norm_num [c2Img])
      (by rw [varG, chanVar, if_neg (by decide)]; norm_num [c2Img])
      (by rw [varB, chanVar, if_neg (by decide)]; norm_num [c2Img])
      (by norm_num))
    (Builds.leaf (Or.inl (le_refl 1)))
    (Builds.leaf (Or.inl (le_refl 1)))
    (Builds.leaf (Or.inl (le_refl 1)))
    (Builds.leaf (Or.inl (le_refl 1)))

/-- The entropy coding applied to the serialized checkerboard tree,
expressed through the length-based selection (equivalent to the ratio
selection by pickByScore_eq_spec), so that the remaining computation is
purely over natural numbers. -/
theorem c2pick :
    compressData c2Final c2Img false =
      specPickShortest (candList (serializeTree c2Final c2Img) false) := by
  unfold compressData
  rw [if_neg (by decide), adaptiveEncode, if_neg (by decide),
    pickByScore_eq_spec (by decide) _ (candList_ne_nil _ _)]

/-- C2: the checkerboard scenario of the spec fails on the code.  In a
fresh build session the build relation produces c2Final: a tree of four
tiles in which the root was overwritten by its own first child (tile 1 is
a depth-1 leaf whose parent is itself), not a root with four children.
Decompressing the compressed stream yields an image that differs from the
input: pixel (1,1) comes back black instead of red. -/
theorem c2_checkerboard_code_bug :
    Builds c2Img [] (1 / 100) 0 1 1 (initTree 2 2) 1 c2Final 5 ∧
    c2Final.tiles.length = 4 ∧
    mapFind? 1 c2Final.tiles = some ⟨1, 1, 1, [], ⟨255, 0, 0⟩⟩ ∧
    decompress 2 2 (compressData c2Final c2Img false) ≠ c2Img ∧
    (decompress 2 2 (compressData c2Final c2Img false)).getPixel 1 1 = ⟨0, 0, 0⟩ ∧
    c2Img.getPixel 1 1 = ⟨255, 0, 0⟩ := by
  refine ⟨buildC2, by decide, by decide, ?_, ?_, by decide⟩
  · rw [c2pick]; decide
  · rw [c2pick]; decide

/-! ## C4: serializer enumeration order -/

/-- Build of c4Img with threshold 1/20, max depth 2, id counter at 2. -/
theorem buildC4 : Builds c4Img [] (1 / 20) 0 2 1 (initTree 4 4) 2 c4Final 10 :=
  Builds.node (by norm_num)
    (shouldSubdiv_gray (455175 / 64) (by norm_num)
      (by rw [varR, chanVar, if_neg (by decide)]; norm_num [c4Img])
      (by rw [varG, chanVar, if_neg (by decide)]; norm_num [c4Img])
      (by rw [varB, chanVar, if_neg (by decide)]; norm_num [c4Img])
      (by norm_num))
    (Builds.node (by norm_num)
      (shouldSubdiv_gray (65025 / 4) (by norm_num)
        (by
          have h : childImage c4Img 0 =
              ⟨2, 2, [⟨255, 255, 255⟩, ⟨0, 0, 0⟩, ⟨0, 0, 0⟩, ⟨255, 255, 255⟩]⟩ := by decide
          rw [h, varR, chanVar, if_neg (by decide)]; norm_num)
        (by
          have h : childImage c4Img 0 =
              ⟨2, 2, [⟨255, 255, 255⟩, ⟨0, 0, 0⟩, ⟨0, 0, 0⟩, ⟨255, 255, 255⟩]⟩ := by decide
          rw [h, varG, chanVar, if_neg (by decide)]; norm_num)
        (by
          have h : childImage c4Img 0 =
              ⟨2, 2, [⟨255, 255, 255⟩, ⟨0, 0, 0⟩, ⟨0, 0, 0⟩, ⟨255, 255, 255⟩]⟩ := by decide
          rw [h, varB, chanVar, if_neg (by decide)]; norm_num)
        (by norm_num))
      (Builds.leaf (Or.inl (le_refl 2)))
      (Builds.leaf (Or.inl (le_refl 2)))
      (Builds.leaf (Or.inl (le_refl 2)))
      (Builds.leaf (Or.inl (le_refl 2))))
    (Builds.leaf (Or.inr (notSubdiv_zeroVar (by norm_num)
      (by
        have h : childImage c4Img 1 = ⟨2, 2, [⟨0, 0, 0⟩, ⟨0, 0, 0⟩, ⟨0, 0, 0⟩, ⟨0, 0, 0⟩]⟩ := by
          decide
        rw [h, varR, chanVar, if_neg (by decide)]; norm_num)
      (by
        have h : childImage c4Img 1 = ⟨2, 2, [⟨0, 0, 0⟩, ⟨0, 0, 0⟩, ⟨0, 0, 0⟩, ⟨0, 0, 0⟩]⟩ := by
          decide
        rw [h, varG, chanVar, if_neg (by decide)]; norm_num)
      (by
        have h : childImage c4Img 1 = ⟨2, 2, [⟨0, 0, 0⟩, ⟨0, 0, 0⟩, ⟨0, 0, 0⟩, ⟨0, 0, 0⟩]⟩ := by
          decide
        rw [h, varB, chanVar, if_neg (by decide)]; norm_num))))
    (Builds.leaf (Or.inr (notSubdiv_zeroVar (by norm_num)
      (by
        have h : childImage c4Img 2 = ⟨2, 2, [⟨0, 0, 0⟩, ⟨0, 0, 0⟩, ⟨0, 0, 0⟩, ⟨0, 0, 0⟩]⟩ := by
          decide
        rw [h, varR, chanVar, if_neg (by decide)]; norm_num)
      (by
        have h : childImage c4Img 2 = ⟨2, 2, [⟨0, 0, 0⟩, ⟨0, 0, 0⟩, ⟨0, 0, 0⟩, ⟨0, 0, 0⟩]⟩ := by
          decide
        rw [h, varG, chanVar, if_neg (by decide)]; norm_num)
      (by
        have h : childImage c4Img 2 = ⟨2, 2, [⟨0, 0, 0⟩, ⟨0, 0, 0⟩, ⟨0, 0, 0⟩, ⟨0, 0, 0⟩]⟩ := by
          decide
        rw [h, varB, chanVar, if_neg (by decide)]; norm_num))))
    (Builds.leaf (Or.inr (notSubdiv_zeroVar (by norm_num)
      (by
        have h : childImage c4Img 3 = ⟨2, 2, [⟨0, 0, 0⟩, ⟨0, 0, 0⟩, ⟨0, 0, 0⟩, ⟨0, 0, 0⟩]⟩ := by
          decide
        rw [h, varR, chanVar, if_neg (by decide)]; norm_num)
      (by
        have h : childImage c4Img 3 = ⟨2, 2, [⟨0, 0, 0⟩, ⟨0, 0, 0⟩, ⟨0, 0, 0⟩, ⟨0, 0, 0⟩]⟩ := by
          decide
        rw [h, varG, chanVar, if_neg (by decide)]; norm_num)
      (by
        have h : childImage c4Img 3 = ⟨2, 2, [⟨0, 0, 0⟩, ⟨0, 0, 0⟩, ⟨0, 0, 0⟩, ⟨0, 0, 0⟩]⟩ := by
          decide
        rw [h, varB, chanVar, if_neg (by decide)]; norm_num))))

/-- C4 (counterexample): on the depth-2 tree built from c4Img the
serializer enumeration (ascending tile ids, the std::map iteration order
used by get_all_tiles) differs from both the insertion order of the
recursive build and the pre-order enumeration rooted at id 1; the third
record of the serialized stream (depth byte at offset 50) describes the
depth-1 tile with id 3, while the third tile of the pre-order enumeration
is the depth-2 tile with id 6. -/
theorem c4_enumeration_not_preorder :
    Builds c4Img [] (1 / 20) 0 2 1 (initTree 4 4) 2 c4Final 10 ∧
    allTileIds c4Final = [1, 2, 3, 4, 5, 6, 7, 8, 9] ∧
    c4Final.insLog = [1, 2, 6, 7, 8, 9, 3, 4, 5] ∧
    preorderIds c4Final = [1, 2, 6, 7, 8, 9, 3, 4, 5] ∧
    allTileIds c4Final ≠ preorderIds c4Final ∧
    allTileIds c4Final ≠ c4Final.insLog ∧
    (serializeTree c4Final c4Img).getD 50 0 = 1 ∧
    (mapFind? 6 c4Final.tiles).map Tile.depth = some 2 :=
  ⟨buildC4, by decide, by decide, by decide, by decide, by decide, by decide, by decide⟩

/-- Membership after an ordered insert-or-replace. -/
theorem mapInsert_mem {α : Type} {k : ℕ} {v : α} :
    ∀ {l : List (ℕ × α)} {e : ℕ × α}, e ∈ mapInsert k v l → e = (k, v) ∨ e ∈ l := by
  intro l
  induction l with
  | nil =>
    intro e he
    rw [mapInsert] at he
    exact Or.inl (List.mem_singleton.mp he)
  | cons a rest ih =>
    obtain ⟨ak, av⟩ := a
    intro e he
    rw [mapInsert] at he
    split at he
    · rcases List.mem_cons.mp he with he | he
      · exact Or.inl he
      · exact Or.inr he
    · split at he
      · rcases List.mem_cons.mp he with he | he
        · exact Or.inl he
        · exact Or.inr (List.mem_cons_of_mem _ he)
      · rcases List.mem_cons.mp he with he | he
        · exact Or.inr (by simp [he])
        · rcases ih he with h | h
          · exact Or.inl h
          · exact Or.inr (List.mem_cons_of_mem _ h)

/-- Ordered insert-or-replace preserves strictly ascending keys. -/
theorem keysSorted_mapInsert {α : Type} {k : ℕ} {v : α} :
    ∀ {l : List (ℕ × α)}, keysSorted l → keysSorted (mapInsert k v l) := by
  intro l
  induction l with
  | nil => intro _; simp [mapInsert, keysSorted]
  | cons a rest ih =>
    obtain ⟨ak, av⟩ := a
    intro hs
    rw [keysSorted, List.pairwise_cons] at hs
    obtain ⟨hhead, htail⟩ := hs
    rw [mapInsert]
    split
    · rename_i hlt
      rw [keysSorted, List.pairwise_cons]
      refine ⟨?_, List.pairwise_cons.mpr ⟨hhead, htail⟩⟩
      intro e he
      rcases List.mem_cons.mp he with he | he
      · rw [he]; exact hlt
      · exact lt_trans hlt (hhead e he)
    · split
      · rename_i hnlt heq
        rw [keysSorted, List.pairwise_cons]
        refine ⟨?_, htail⟩
        intro e he
        show k < e.1
        rw [heq]
        exact hhead e he
      · rename_i hnlt hne
        rw [keysSorted, List.pairwise_cons]
        refine ⟨?_, ih htail⟩
        intro e he
        rcases mapInsert_mem he with he | he
        · rw [he]
          show ak < k
          omega
        · exact hhead e he

/-- putTile preserves ascending tile keys. -/
theorem putTile_sorted {st : TreeState} {k : ℕ} {t : Tile}
    (h : keysSorted st.tiles) : keysSorted (putTile st k t).tiles :=
  keysSorted_mapInsert h

/-- putAddr does not change the tile map. -/
theorem putAddr_tiles (st : TreeState) (k : ℕ) (a : List ℕ) :
    (putAddr st k a).tiles = st.tiles := rfl

/-- bumpMaxDepth does not change the tile map. -/
theorem bumpMaxDepth_tiles (st : TreeState) (d : ℕ) :
    (bumpMaxDepth st d).tiles = st.tiles := by
  unfold bumpMaxDepth
  split <;> rfl

/-- setColorOf preserves ascending tile keys. -/
theorem setColorOf_sorted {st : TreeState} {k : ℕ} {c : Color}
    (h : keysSorted st.tiles) : keysSorted (setColorOf st k c).tiles := by
  unfold setColorOf
  split
  · exact h
  · exact keysSorted_mapInsert h

/-- addChildrenTo preserves ascending tile keys. -/
theorem addChildrenTo_sorted {st : TreeState} {k : ℕ} {cs : List ℕ}
    (h : keysSorted st.tiles) : keysSorted (addChildrenTo st k cs).tiles := by
  unfold addChildrenTo
  split
  · exact h
  · exact keysSorted_mapInsert h

/-- preVisit preserves ascending tile keys. -/
theorem preVisit_sorted {st : TreeState} {tid : ℕ} {img : Image} {d : ℕ}
    (h : keysSorted st.tiles) : keysSorted (preVisit st tid img d).tiles := by
  unfold preVisit
  apply setColorOf_sorted
  rw [bumpMaxDepth_tiles]
  exact h

/-- enterChild preserves ascending tile keys. -/
theorem enterChild_sorted {st : TreeState} {cid k tid d : ℕ} {addr : List ℕ}
    (h : keysSorted st.tiles) : keysSorted (enterChild st cid k tid d addr).tiles := by
  unfold enterChild
  rw [putAddr_tiles]
  exact putTile_sorted h

/-- The recursive build preserves the std::map key order of the tile map. -/
theorem builds_keysSorted {img : Image} {addr : List ℕ} {t : ℚ}
    {d maxd tid : ℕ} {st : TreeState} {ctr : ℕ} {st2 : TreeState} {ctr2 : ℕ}
    (hb : Builds img addr t d maxd tid st ctr st2 ctr2) :
    keysSorted st.tiles → keysSorted st2.tiles := by
  induction hb with
  | leaf h => intro hs; exact preVisit_sorted hs
  | node hd hsub h0 h1 h2 h3 ih0 ih1 ih2 ih3 =>
    intro hs
    exact ih3 (enterChild_sorted (ih2 (enterChild_sorted (ih1 (enterChild_sorted
      (ih0 (enterChild_sorted (addChildrenTo_sorted (preVisit_sorted hs)))))))))

/-- C4 (amended): for every tree reachable by the recursive build from a
tree state whose tile map is sorted (as the std::map always is), the
serializer enumeration get_all_tiles lists the tile ids in strictly
ascending id order, which is the allocation order of the ids; as shown by
the counterexample, this order is not in general the insertion order or a
pre-order traversal. -/
theorem c4_serializer_ascending_ids {img : Image} {addr : List ℕ} {t : ℚ}
    {d maxd tid : ℕ} {st : TreeState} {ctr : ℕ} {st2 : TreeState} {ctr2 : ℕ}
    (hb : Builds img addr t d maxd tid st ctr st2 ctr2)
    (hs : keysSorted st.tiles) :
    List.Pairwise (fun a b => a < b) (allTileIds st2) := by
  have h2 := builds_keysSorted hb hs
  rw [keysSorted] at h2
  exact List.Pairwise.map Prod.fst (fun a b h => h) h2

/-- Witness for the amended C4 at the concrete depth-2 build. -/
theorem c4_serializer_ascending_ids_witness :
    keysSorted (initTree 4 4).tiles ∧
      List.Pairwise (fun a b => a < b) (allTileIds c4Final) :=
  ⟨by unfold keysSorted initTree; exact List.pairwise_singleton _ _,
   c4_serializer_ascending_ids buildC4
     (by unfold keysSorted initTree; exact List.pairwise_singleton _ _)⟩
